import Mathlib

/-!
Verification of the Allay VS Code completion provider
(`src/completionProvider.ts`, class `AllayCompletionItemProvider`).

The provider is embedded shallowly: the document text, the line prefix up to
the cursor and the character following the cursor are explicit inputs; the two
asynchronous boundary calls (workspace file enumeration and the single config
file read) are inputs of type `List String` and `Option (Except Unit String)`
(`none` = no `allay.toml` found, `Except.error` = the read threw).  JavaScript
regular expressions are rendered as executable character-list scanners whose
semantics (greedy/lazy resolution, global `exec` restart positions, multiline
anchors) are derived by hand from the concrete patterns in the source and
recorded in comments next to each definition.
-/

namespace Allay

/-- JavaScript `\s` (also the set trimmed by `String.prototype.trim`). -/
def isJsWs (c : Char) : Bool :=
  c.toNat = 9 || c.toNat = 10 || c.toNat = 11 || c.toNat = 12 || c.toNat = 13 ||
  c.toNat = 32 || c.toNat = 0xa0 || c.toNat = 0x1680 ||
  (0x2000 ≤ c.toNat && c.toNat ≤ 0x200a) || c.toNat = 0x2028 ||
  c.toNat = 0x2029 || c.toNat = 0x202f || c.toNat = 0x205f ||
  c.toNat = 0x3000 || c.toNat = 0xfeff

/-- The class `[a-zA-Z0-9_-]` used by the config-key and front-matter-key
regexes. -/
def isIdentChar (c : Char) : Bool :=
  (0x30 ≤ c.toNat && c.toNat ≤ 0x39) || (0x41 ≤ c.toNat && c.toNat ≤ 0x5a) ||
  (0x61 ≤ c.toNat && c.toNat ≤ 0x7a) || c.toNat = 0x5f || c.toNat = 0x2d

/-- The class `[a-zA-Z0-9_.]` used by the dot-access root regex. -/
def isIdentDotChar (c : Char) : Bool :=
  (0x30 ≤ c.toNat && c.toNat ≤ 0x39) || (0x41 ≤ c.toNat && c.toNat ≤ 0x5a) ||
  (0x61 ≤ c.toNat && c.toNat ≤ 0x7a) || c.toNat = 0x5f || c.toNat = 0x2e

/-- The class `[\$a-zA-Z0-9_,\s]` capturing variable groups in
`set`/`for` statements. -/
def isVarClassChar (c : Char) : Bool :=
  c.toNat = 0x24 || (0x30 ≤ c.toNat && c.toNat ≤ 0x39) ||
  (0x41 ≤ c.toNat && c.toNat ≤ 0x5a) || (0x61 ≤ c.toNat && c.toNat ≤ 0x7a) ||
  c.toNat = 0x5f || c.toNat = 0x2c || isJsWs c

/-- `vscode.CompletionItemKind` values used by the provider. -/
inductive ItemKind where
  | Snippet | Keyword | Variable | Constant | Function | File | Field
deriving DecidableEq, Repr

/-- A `vscode.CompletionItem` restricted to the fields the provider sets.
`insertText` holds the raw snippet string (`$0` is the final cursor stop);
`range` is a pair of character columns on the current line; `retrigger`
models the `editor.action.triggerSuggest` post-insert command. -/
structure CompletionItem where
  label : String
  kind : ItemKind
  detail : String
  documentation : Option String
  insertText : Option String
  range : Option (Nat × Nat)
  filterText : Option String
  sortText : Option String
  preselect : Bool
  retrigger : Bool
deriving DecidableEq, Repr

/-- External collaborators of one completion request: the two workspace file
enumerations and the config file reader. -/
structure Env where
  templateFiles : List String
  shortcodeFiles : List String
  config : Option (Except Unit String)

/-! ## Block snippets (`getBlockCompletions`) -/

/-- `getBlockCompletions`: snippets for a prefix ending in `{-`, `{:` or `{<`.
The replace range targets only the final typed character
(`position.translate(0,-1)` to `position`), extended by one when the character
after the cursor is an auto-paired `}`. -/
def getBlockCompletions (lineToCursor : List Char) (position : Nat)
    (nextChar : Option Char) : Option (List CompletionItem) :=
  let startPos := position - 1
  let endPos := if nextChar = some '\x7d' then position + 1 else position
  let r : Option (Nat × Nat) := some (startPos, endPos)
  if "\x7b-".data.isSuffixOf lineToCursor then
    some [⟨"\x7b- command -\x7d", ItemKind.Snippet, "Allay Command Block",
           none, some "- $0 -\x7d", r, some "-", some "001", true, true⟩]
  else if "\x7b:".data.isSuffixOf lineToCursor then
    some [⟨"\x7b: expression :\x7d", ItemKind.Snippet, "Allay Expression Block",
           none, some ": $0 :\x7d", r, some ":", some "001", true, true⟩]
  else if "\x7b<".data.isSuffixOf lineToCursor then
    some [⟨"\x7b< shortcode >\x7d", ItemKind.Snippet, "Shortcode Call",
           none, some "< $1 >\x7d$0", r, some "<", some "001", false, true⟩,
          ⟨"\x7b< shortcode />\x7d", ItemKind.Snippet, "Self-closing Shortcode",
           none, some "< $1 />\x7d", r, some "<", some "002", false, true⟩,
          ⟨"\x7b< pair >\x7d...\x7b</ pair >\x7d", ItemKind.Snippet,
           "Shortcode Block Pair", none,
           some "< $1 >\x7d\n\t$0\n\x7b</ $1 >\x7d", r, some "<", some "003",
           false, true⟩]
  else none

/-! ## Line-prefix context matchers

Each JS `linePrefix.match(re)` with an end-anchored pattern is a search for
some start position whose suffix matches the anchored pattern, hence
`List.tails.any` over an "anchored at this suffix" checker. -/

/-- Anchored body of `/\{-([^}]*)$/`. -/
def commandBodyAt : List Char → Bool
  | '\x7b' :: '-' :: rest => rest.all (fun c => c != '\x7d')
  | _ => false

/-- `/\{-([^}]*)$/` (step 3, command block context). -/
def matchCommandBody (l : List Char) : Bool := l.tails.any commandBodyAt

/-- Anchored body of `/\{:([^}]*)$/`. -/
def expressionBodyAt : List Char → Bool
  | '\x7b' :: ':' :: rest => rest.all (fun c => c != '\x7d')
  | _ => false

/-- `/\{:([^}]*)$/` (step 4, expression block context). -/
def matchExpressionBody (l : List Char) : Bool := l.tails.any expressionBodyAt

/-- Anchored body of `/(\{:|\{-)([^}]+)$/` (the still-open-block guard of the
dot-access step; note `[^}]+` requires at least one character). -/
def openNonEmptyAt : List Char → Bool
  | '\x7b' :: c :: rest =>
    (c = ':' || c = '-') && !rest.isEmpty && rest.all (fun x => x != '\x7d')
  | _ => false

/-- `/(\{:|\{-)([^}]+)$/` (step 2 outer guard). -/
def matchOpenNonEmpty (l : List Char) : Bool := l.tails.any openNonEmptyAt

/-- After `include`/`extends`: `\s+` (at least one), `"`, then `[^"]*` running
to the end of the prefix (no closing quote typed yet). -/
def keywordPathAt (kw l : List Char) : Bool :=
  kw.isPrefixOf l &&
    (match l.drop kw.length with
     | c :: rest =>
       isJsWs c &&
         (match (c :: rest).dropWhile isJsWs with
          | '"' :: after => after.all (fun x => x != '"')
          | _ => false)
     | [] => false)

/-- Anchored body of `/\{-(?:\s*)(?:include|extends)\s+"([^"]*)$/`. -/
def includeAt : List Char → Bool
  | '\x7b' :: '-' :: rest =>
    let afterWs := rest.dropWhile isJsWs
    keywordPathAt "include".data afterWs || keywordPathAt "extends".data afterWs
  | _ => false

/-- `/\{-(?:\s*)(?:include|extends)\s+"([^"]*)$/` (step 1, path completion). -/
def matchInclude (l : List Char) : Bool := l.tails.any includeAt

/-- Anchored body of `/\{<\/?([^>}]*)$/`: optional closing-tag slash, then
characters outside `>}` up to the cursor. -/
def shortcodeAt : List Char → Bool
  | '\x7b' :: '<' :: rest =>
    let r := match rest with
      | '/' :: t => t
      | _ => rest
    r.all (fun c => c != '>' && c != '\x7d')
  | _ => false

/-- `/\{<\/?([^>}]*)$/` (step 5, shortcode context). -/
def matchShortcode (l : List Char) : Bool := l.tails.any shortcodeAt

/-- `/([a-zA-Z0-9_.]*)\.$/`: the prefix must end in `.`; the captured root is
the maximal run of identifier/dot characters directly before that dot
(leftmost match start = earliest position from which all characters up to the
final dot lie in the class). -/
def dotRoot (l : List Char) : Option String :=
  match l.getLast? with
  | some '.' =>
    some ((l.dropLast.reverse.takeWhile isIdentDotChar).reverse).asString
  | _ => none

/-! ## Static keyword tables -/

/-- Keyword list of `getControlKeywords`. -/
def controlKeywordList : List String :=
  ["set", "for", "with", "if", "else if", "else", "end",
   "include", "extends", "get", "param"]

/-- `getControlKeywords`: control-flow keywords for command blocks. -/
def getControlKeywords : List CompletionItem :=
  controlKeywordList.map fun w =>
    ⟨w, ItemKind.Keyword, "Allay Command", none, none, none, none, none,
     false, false⟩

/-- `getOutputKeywords`: the single `block` keyword for expression blocks. -/
def getOutputKeywords : List CompletionItem :=
  [⟨"block", ItemKind.Keyword, "Allay Block Definition",
    some "Define a block for template inheritance: `\x7b: block \"name\" :\x7d`",
    none, none, none, none, false, false⟩]

/-! ## Common expressions and the document variable scanner -/

/-- The static part of `getCommonExpressions`: built-in variables, the `null`
constant, built-in functions, and `end`. -/
def staticExpressionItems : List CompletionItem :=
  (["this", "site", "pages", "param"].map fun v =>
    (⟨v, ItemKind.Variable, "Allay Built-in Variable", none, none, none, none,
      none, false, false⟩ : CompletionItem)) ++
  (["null"].map fun c =>
    (⟨c, ItemKind.Constant, "Allay Constant", none, none, none, none, none,
      false, false⟩ : CompletionItem)) ++
  (["len", "slice", "append", "list", "format_date", "truncate"].map fun f =>
    (⟨f, ItemKind.Function, "Allay Built-in Function", none, none, none, none,
      none, false, false⟩ : CompletionItem)) ++
  (["end"].map fun f =>
    (⟨f, ItemKind.Function, "Allay Keyword", none, none, none, none, none,
      false, false⟩ : CompletionItem))

/-- JS `String.prototype.trim` (trims the `\s` set on both ends). -/
def jsTrimList (l : List Char) : List Char :=
  ((l.dropWhile isJsWs).reverse.dropWhile isJsWs).reverse

/-- `match[1].split(',').map(v => v.trim()).filter(v => v.startsWith('$'))`;
`startsWith('$')` is rendered as "the first character is `$`". -/
def parseVarGroup (capture : List Char) : List String :=
  ((capture.asString.splitOn ",").map
    (fun v => (jsTrimList v.data).asString)).filter
    (fun v => v.data.head? == some '$')

/-- One attempt of `/\{-\s*(?:set|for)\s+([\$a-zA-Z0-9_,\s]+)(?:=|:)/` at a
position starting with `{-`.  Backtracking resolution: the greedy class run
after the keyword has a fixed maximal extent (the class contains `\s`, and the
terminators `=`/`:` are outside the class), so a match needs the run to start
with whitespace (feeding `\s+`), to have length at least 2, and to be followed
directly by `=` or `:`; `\s+` then keeps `min(ws-run, run-1)` characters and
the capture is the rest of the run.  Returns the parsed variable group and the
remainder after the terminator (the next `lastIndex`). -/
def varGroupCapture : List Char → Option (List Char × List Char)
  | '\x7b' :: '-' :: rest =>
    let afterWs := rest.dropWhile isJsWs
    let afterKw : Option (List Char) :=
      if "set".data.isPrefixOf afterWs then some (afterWs.drop 3)
      else if "for".data.isPrefixOf afterWs then some (afterWs.drop 3)
      else none
    match afterKw with
    | none => none
    | some r =>
      let run := r.takeWhile isVarClassChar
      let rest2 := r.drop run.length
      match run.head?, rest2.head? with
      | some c0, some t =>
        if isJsWs c0 && decide (2 ≤ run.length) && (t = '=' || t = ':') then
          let w := min (run.takeWhile isJsWs).length (run.length - 1)
          some (run.drop w, rest2.tail)
        else none
      | _, _ => none
  | _ => none

/-- One attempt of the variable regex, with the captured group parsed into the
variable tokens it binds. -/
def tryVarMatch (l : List Char) : Option (List String × List Char) :=
  (varGroupCapture l).map (fun p => (parseVarGroup p.1, p.2))

/-- Global `exec` loop of the variable regex: on a failed attempt the engine
advances one position; on success it resumes after the matched terminator.
Fuel bounds the recursion; `scanVars` supplies `length + 1`, which is enough
since every step consumes at least one character. -/
def scanVarsAux : Nat → List Char → List String
  | 0, _ => []
  | _, [] => []
  | Nat.succ f, c :: cs =>
    match tryVarMatch (c :: cs) with
    | some (vs, rest) => vs ++ scanVarsAux f rest
    | none => scanVarsAux f cs

/-- All variable tokens extracted from the whole document text. -/
def scanVars (doc : List Char) : List String :=
  scanVarsAux (doc.length + 1) doc

/-- User-variable item pushed by the scanner loop. -/
def mkUserVarItem (v : String) : CompletionItem :=
  ⟨v, ItemKind.Variable, "User Defined Variable", none, none, none, none, none,
   false, false⟩

/-- The scanner loop of `getCommonExpressions`: each extracted token is pushed
unless its label is already present (`existingLabels` starts as the static
labels and records every pushed variable). -/
def addUserVars : List CompletionItem → List String → List String →
    List CompletionItem
  | items, _, [] => items
  | items, existing, v :: vs =>
    if v ∈ existing then addUserVars items existing vs
    else addUserVars (items ++ [mkUserVarItem v]) (existing ++ [v]) vs

/-- `getCommonExpressions`: static entries followed by de-duplicated user
variables scanned from the document. -/
def getCommonExpressions (doc : List Char) : List CompletionItem :=
  addUserVars staticExpressionItems
    (staticExpressionItems.map (fun i => i.label)) (scanVars doc)

/-! ## File lookups -/

/-- Last path component (`path.basename` / the `base` of `path.parse`). -/
def lastComponent (p : List Char) : List Char :=
  (p.reverse.takeWhile (fun c => c != '/')).reverse

/-- `path.parse(p).name`, equivalently `path.basename(p, path.extname(p))`:
the last component with its extension (suffix from the last dot, unless that
dot is the leading character) removed. -/
def baseNameNoExt (p : String) : String :=
  let b := lastComponent p.data
  let extLen := (b.reverse.takeWhile (fun c => c != '.')).length
  if extLen = b.length then b.asString
  else if b.length - extLen - 1 = 0 then b.asString
  else (b.take (b.length - extLen - 1)).asString

/-- `getTemplateFileCompletions`: one item per enumerated file, label =
extension-stripped base name, no de-duplication.  `asRelativePath` is modeled
as the identity on the already-project-relative enumerated paths. -/
def getTemplateFileCompletions (files : List String) : List CompletionItem :=
  files.map fun f =>
    ⟨baseNameNoExt f, ItemKind.File, "Template File",
     some ("Located at: `" ++ f ++ "`"), none, none, none, none, false, false⟩

/-- First-seen de-duplication against an initial exclusion list (the JS `Set`
keeps insertion order). -/
def dedupAgainst (ex : List String) : List String → List String
  | [] => []
  | v :: vs =>
    if v ∈ ex then dedupAgainst ex vs
    else v :: dedupAgainst (ex ++ [v]) vs

/-- Plain first-seen de-duplication. -/
def dedupFirst (l : List String) : List String := dedupAgainst [] l

/-- `getShortcodeCompletions`: base names are collected into a `Set` (distinct,
insertion order) before one item per distinct name is produced. -/
def getShortcodeCompletions (files : List String) : List CompletionItem :=
  (dedupFirst (files.map baseNameNoExt)).map fun n =>
    ⟨n, ItemKind.Snippet, "Allay Shortcode",
     some ("Shortcode defined in **shortcodes/" ++ n ++ ".(md|html)**"),
     none, none, none, none, false, false⟩

/-! ## Field completions -/

/-- `createFieldItem`. -/
def createFieldItem (label doc : String) : CompletionItem :=
  ⟨label, ItemKind.Field, doc, none, none, none, none, none, false, false⟩

/-- The 8 standard front-matter fields. -/
def standardFields : List String :=
  ["title", "date", "description", "tags", "template", "url", "head", "content"]

/-- Skip to the position after the next newline (the earliest position at which
a `^` of an `/m` regex can anchor again). -/
def nextLine (l : List Char) : List Char :=
  match l.dropWhile (fun c => c != '\n') with
  | [] => []
  | _ :: t => t

/-- Global `/^\s*([a-zA-Z0-9_-]+):/gm` scan (front-matter custom keys).  Each
attempt anchors at a line start, skips `\s*` (which may cross newlines), reads
a maximal identifier run and requires `:` directly after it (the terminator is
outside the identifier class, so backtracking cannot shorten the run); on
failure the next attempt is at the line start after the attempt position, on
success after the consumed `:`. -/
def scanColonAux : Nat → List Char → List String
  | 0, _ => []
  | Nat.succ f, l =>
    if l.isEmpty then []
    else
      let s1 := l.dropWhile isJsWs
      let idRun := s1.takeWhile isIdentChar
      let s2 := s1.drop idRun.length
      if idRun ≠ [] ∧ s2.head? = some ':' then
        idRun.asString :: scanColonAux f (nextLine s2.tail)
      else scanColonAux f (nextLine l)

/-- Front-matter custom keys of a header block's content. -/
def scanColonKeys (l : List Char) : List String :=
  scanColonAux (l.length + 1) l

/-- Global `/^\s*([a-zA-Z0-9_-]+)\s*=/gm` scan (config keys); like the colon
scan but with a further `\s*` (possibly crossing newlines) before `=`. -/
def scanEqAux : Nat → List Char → List String
  | 0, _ => []
  | Nat.succ f, l =>
    if l.isEmpty then []
    else
      let s1 := l.dropWhile isJsWs
      let idRun := s1.takeWhile isIdentChar
      let s2 := (s1.drop idRun.length).dropWhile isJsWs
      if idRun ≠ [] ∧ s2.head? = some '=' then
        idRun.asString :: scanEqAux f (nextLine s2.tail)
      else scanEqAux f (nextLine l)

/-- Config keys of a `[Param]` section's content. -/
def scanEqKeys (l : List Char) : List String :=
  scanEqAux (l.length + 1) l

/-- Characters before the first occurrence of `---`, if any. -/
def splitAtTerm : List Char → Option (List Char)
  | [] => none
  | c :: rest =>
    if "---".data.isPrefixOf (c :: rest) then some []
    else (splitAtTerm rest).map (fun l => c :: l)

/-- The front-matter regex `^---` `\s*` `([\s\S]*?)` `\s*` `---` (no `m`
flag, so `^` anchors at the string start): the text must start with `---`; the
capture is
everything up to the first later `---`, with surrounding whitespace consumed
by the two `\s*` (the lazy group together with the greedy `\s*` resolves to
the first later `---`, trimming whitespace on both sides of the capture; `-`
is not whitespace, so the greedy parts cannot skip an occurrence). -/
def frontMatterContent (doc : List Char) : Option (List Char) :=
  if "---".data.isPrefixOf doc then (splitAtTerm (doc.drop 3)).map jsTrimList
  else none

/-- Custom front-matter keys of the current document. -/
def customFrontMatterKeys (doc : List Char) : List String :=
  match frontMatterContent doc with
  | none => []
  | some y => scanColonKeys y

/-- `getMarkdownPageKeys`: the 8 standard fields (whose names also seed
`existingKeys`), then every scanned custom key not among them.  Scanned keys
are never added to `existingKeys`, so custom keys are only checked against the
standard names. -/
def getMarkdownPageKeys (doc : List Char) : List CompletionItem :=
  (standardFields.map (fun f => createFieldItem f "Standard Page Metadata")) ++
  (customFrontMatterKeys doc).foldl
    (fun acc k =>
      if k ∈ standardFields then acc
      else acc ++ [createFieldItem k "Front-matter variable from current file"])
    []

/-- Case-insensitive `[Param]` header test at this position (`/i` on the
ASCII letters of the literal). -/
def paramHeaderAt (l : List Char) : Bool :=
  (l.take 7).map Char.toLower = "[param]".data

/-- `/\[Param\]([\s\S]*?)(?:\[|$)/i`: the leftmost case-insensitive `[Param]`
occurrence; the lazy capture runs to the next `[` or the end of the text. -/
def findParamSection : List Char → Option (List Char)
  | [] => none
  | c :: rest =>
    if paramHeaderAt (c :: rest) then
      some ((rest.drop 6).takeWhile (fun x => x != '['))
    else findParamSection rest

/-- `getAllayConfigKeys`: empty when no `allay.toml` is found, when opening or
reading it throws (the `try`/`catch` converts the exception to the items
accumulated so far, which are none), or when no `[Param]` section matches;
otherwise one field item per scanned `key =` line. -/
def getAllayConfigKeys (cfg : Option (Except Unit String)) :
    List CompletionItem :=
  match cfg with
  | none => []
  | some (Except.error _) => []
  | some (Except.ok text) =>
    match findParamSection text.data with
    | none => []
    | some content =>
      (scanEqKeys content).map
        (fun k => createFieldItem k "Config from allay.toml")

/-- `getFieldCompletions`: dispatch on the parent object path. -/
def getFieldCompletions (parent : String) (doc : List Char)
    (cfg : Option (Except Unit String)) : List CompletionItem :=
  if parent = "site" then
    [createFieldItem "param" "Global configurations from allay.toml",
     createFieldItem "pages" "List of all markdown pages"]
  else if parent = "site.param" then getAllayConfigKeys cfg
  else if parent = "" || parent.endsWith "page" then getMarkdownPageKeys doc
  else []

/-! ## Request orchestrator -/

/-- `provideCompletionItems`.  `lineToCursor` is the line text up to the
cursor, `nextChar` the document character directly after the cursor on the
line, `doc` the whole document text.  `none` models the `undefined` result
that lets the host fall back to its default suggestions. -/
def provideCompletionItems (lineToCursor : List Char) (nextChar : Option Char)
    (doc : List Char) (env : Env) : Option (List CompletionItem) :=
  let allItems :=
    (getBlockCompletions lineToCursor lineToCursor.length nextChar).getD []
  if matchInclude lineToCursor then
    some (allItems ++ getTemplateFileCompletions env.templateFiles)
  else if matchOpenNonEmpty lineToCursor && (dotRoot lineToCursor).isSome then
    some (allItems ++
      getFieldCompletions ((dotRoot lineToCursor).getD "") doc env.config)
  else
    let a1 := allItems ++
      (if matchCommandBody lineToCursor then
        getControlKeywords ++ getCommonExpressions doc else [])
    let a2 := a1 ++
      (if matchExpressionBody lineToCursor then
        getOutputKeywords ++ getCommonExpressions doc else [])
    let a3 := a2 ++
      (if matchShortcode lineToCursor then
        getShortcodeCompletions env.shortcodeFiles else [])
    if a3.isEmpty then none else some a3

/-! ## Snippet commitment -/

/-- Split a snippet at its `$0` cursor stop. -/
def splitAtCursorMark : List Char → List Char × List Char
  | [] => ([], [])
  | c :: rest =>
    if c = '$' ∧ rest.head? = some '0' then ([], rest.tail)
    else
      let p := splitAtCursorMark rest
      (c :: p.1, p.2)

/-- Commit a snippet over a replace range of the line: the range is replaced
by the snippet text and the cursor lands at the `$0` stop. -/
def commitSnippet (line : List Char) (r : Nat × Nat) (snippet : String) :
    List Char × Nat :=
  (line.take r.1 ++ (splitAtCursorMark snippet.data).1 ++
     (splitAtCursorMark snippet.data).2 ++ line.drop r.2,
   r.1 + (splitAtCursorMark snippet.data).1.length)

/-! ## Constructed inputs for the config-key theorems -/

/-- Well-formed config key: nonempty, identifier characters only. -/
def WFkey (k : String) : Prop :=
  k.data ≠ [] ∧ ∀ c ∈ k.data, isIdentChar c = true

/-- Well-formed config value: stays on its line and cannot truncate the
section capture. -/
def WFval (v : String) : Prop :=
  ∀ c ∈ v.data, c ≠ '\n' ∧ c ≠ '['

/-- The `key = value` lines of a config file body. -/
def configBody : List (String × String) → List Char
  | [] => []
  | kv :: rest => kv.1.data ++ " = ".data ++ kv.2.data ++ '\n' :: configBody rest

/-- A config file consisting of a `[Param]` header followed by
`key = value` lines. -/
def mkConfigText (kvs : List (String × String)) : String :=
  ("[Param]".data ++ '\n' :: configBody kvs).asString

/-! ## General helper lemmas -/

theorem asString_data (s : String) : s.data.asString = s := by
  cases s
  rfl

theorem data_asString (l : List Char) : l.asString.data = l := rfl

theorem dropWhile_append_all {p : Char → Bool} :
    ∀ {w : List Char} (l : List Char), (∀ c ∈ w, p c = true) →
      (w ++ l).dropWhile p = l.dropWhile p := by
  intro w
  induction w with
  | nil => intro l _; rfl
  | cons c w ih =>
    intro l hw
    have hc : p c = true := hw c (List.mem_cons_self c w)
    simp only [List.cons_append, List.dropWhile_cons, hc, if_true]
    exact ih l fun x hx => hw x (List.mem_cons_of_mem c hx)

theorem takeWhile_append_stop {p : Char → Bool} :
    ∀ {xs : List Char} {y : Char} (r : List Char),
      (∀ x ∈ xs, p x = true) → p y = false →
      (xs ++ y :: r).takeWhile p = xs := by
  intro xs
  induction xs with
  | nil =>
    intro y r _ hy
    simp [List.takeWhile_cons, hy]
  | cons x xs ih =>
    intro y r hxs hy
    have hx : p x = true := hxs x (List.mem_cons_self x xs)
    simp only [List.cons_append, List.takeWhile_cons, hx, if_true,
      List.cons.injEq, true_and]
    exact ih r (fun z hz => hxs z (List.mem_cons_of_mem x hz)) hy

theorem nextLine_eq (l : List Char) :
    nextLine l = (l.dropWhile (fun c => c != '\n')).tail := by
  unfold nextLine
  rcases l.dropWhile (fun c => c != '\n') with _ | ⟨c, t⟩
  · rfl
  · rfl

theorem mem_nextLine {x : Char} {l : List Char} (h : x ∈ nextLine l) : x ∈ l := by
  rw [nextLine_eq] at h
  exact (List.dropWhile_sublist _).subset
    ((List.tail_sublist _).subset h)

theorem isSuffixOf_pair (l : List Char) (a b x y : Char) :
    [a, b].isSuffixOf (l ++ [x, y]) = true ↔ a = x ∧ b = y := by
  rw [List.isSuffixOf_iff_suffix]
  constructor
  · rintro ⟨t, ht⟩
    have := List.append_inj' ht (by rfl)
    have h2 := this.2
    exact ⟨(List.cons.injEq _ _ _ _).mp h2 |>.1, by
      have := ((List.cons.injEq _ _ _ _).mp h2).2
      exact ((List.cons.injEq _ _ _ _).mp this).1⟩
  · rintro ⟨rfl, rfl⟩
    exact List.suffix_append l [a, b]

/-! ## Claim theorems -/

/-- Claim C1: when both the PathCompletion and the CommandBody patterns match
the line prefix, the orchestrator returns exactly the block-snippet items
collected so far followed by the template-file candidates; the CommandBody
keyword and common-expression generators contribute nothing (priority step 1
short-circuits). -/
theorem claim1_path_priority (lineToCursor : List Char) (nextChar : Option Char)
    (doc : List Char) (env : Env)
    (hinc : matchInclude lineToCursor = true)
    (_hcmd : matchCommandBody lineToCursor = true) :
    provideCompletionItems lineToCursor nextChar doc env =
      some ((getBlockCompletions lineToCursor lineToCursor.length
          nextChar).getD [] ++
        getTemplateFileCompletions env.templateFiles) := by
  unfold provideCompletionItems
  simp [hinc]

/-- Witness for C1 at the concrete prefix `{- include "tem`. -/
theorem claim1_witness :
    matchInclude "\x7b- include \"tem".data = true ∧
    matchCommandBody "\x7b- include \"tem".data = true ∧
    provideCompletionItems "\x7b- include \"tem".data none []
        ⟨["templates/a.html"], [], none⟩ =
      some ((getBlockCompletions "\x7b- include \"tem".data
          "\x7b- include \"tem".data.length none).getD [] ++
        getTemplateFileCompletions ["templates/a.html"]) :=
  ⟨by decide, by decide,
    claim1_path_priority "\x7b- include \"tem".data none []
      ⟨["templates/a.html"], [], none⟩ (by decide) (by decide)⟩

/-- Counterexample to claim C2 as stated: at the prefix `{- include "` with no
template files the produced candidate set is empty, yet the result is the
confident empty list `some []`, not the `NoOpinion` sentinel (`none`): the
PathCompletion short-circuit path returns its list unconditionally. -/
theorem claim2_counterexample :
    provideCompletionItems "\x7b- include \"".data none [] ⟨[], [], none⟩ =
      some [] ∧
    (some [] : Option (List CompletionItem)) ≠ none := by
  constructor
  · decide
  · decide

theorem ne_some_nil (b : List CompletionItem) :
    (if b.isEmpty = true then (none : Option (List CompletionItem))
     else some b) ≠ some [] := by
  by_cases hb : b.isEmpty = true
  · simp [hb]
  · intro h
    rw [if_neg hb, Option.some.injEq] at h
    subst h
    exact hb rfl

/-- Claim C2 (amended): on the aggregation path — when neither the
PathCompletion pattern nor the DotAccess condition short-circuits — an empty
accumulated list yields the `NoOpinion` sentinel and the result is never a
confident empty list.  (The PathCompletion and DotAccess short-circuit paths
return their lists directly, which may be confidently empty.) -/
theorem claim2_no_confident_empty (lineToCursor : List Char)
    (nextChar : Option Char) (doc : List Char) (env : Env)
    (hinc : matchInclude lineToCursor = false)
    (hdot : (matchOpenNonEmpty lineToCursor &&
      (dotRoot lineToCursor).isSome) = false) :
    provideCompletionItems lineToCursor nextChar doc env ≠ some [] := by
  unfold provideCompletionItems
  rw [if_neg, if_neg]
  · exact ne_some_nil _
  · simp [hdot]
  · simp [hinc]

/-- Witness for the amended C2 at a prefix matching no context. -/
theorem claim2_witness :
    matchInclude "hello".data = false ∧
    (matchOpenNonEmpty "hello".data && (dotRoot "hello".data).isSome) = false ∧
    provideCompletionItems "hello".data none [] ⟨[], [], none⟩ ≠ some [] :=
  ⟨by decide, by decide,
    claim2_no_confident_empty "hello".data none [] ⟨[], [], none⟩
      (by decide) (by decide)⟩

/-- Claim C8: the variable scanner is deterministic and stateless — the
common-expression generator is a pure function of the document text, so two
runs on the same unchanged document produce identical ordered lists. -/
theorem claim8_scanner_deterministic (doc : List Char) :
    getCommonExpressions doc = getCommonExpressions doc := rfl

/-- `findParamSection` fails exactly when no position of the text starts a
case-insensitive `[Param]` header. -/
theorem findParamSection_eq_none {l : List Char}
    (h : l.tails.any paramHeaderAt = false) : findParamSection l = none := by
  induction l with
  | nil => rfl
  | cons c rest ih =>
    rw [List.tails_cons, List.any_cons, Bool.or_eq_false_iff] at h
    rw [findParamSection, if_neg (by simp [h.1]), ih h.2]

/-- Claim C7: a missing config file, a read/parse exception, and a config text
without a case-insensitive `[Param]` section header all degrade to the empty
candidate list; the scanner is total, so the exception (modeled as
`Except.error`) never escapes it. -/
theorem claim7_config_degrades_silently :
    getAllayConfigKeys none = [] ∧
    (∀ e : Unit, getAllayConfigKeys (some (Except.error e)) = []) ∧
    (∀ t : String, t.data.tails.any paramHeaderAt = false →
      getAllayConfigKeys (some (Except.ok t)) = []) := by
  refine ⟨rfl, fun _ => rfl, fun t ht => ?_⟩
  simp [getAllayConfigKeys, findParamSection_eq_none ht]

/-- Witness for C7 on a config text with no `[Param]` header. -/
theorem claim7_witness :
    ("no section" : String).data.tails.any paramHeaderAt = false ∧
    getAllayConfigKeys (some (Except.ok "no section")) = [] :=
  ⟨by decide, claim7_config_degrades_silently.2.2 "no section" (by decide)⟩

/-! ## De-duplication lemmas -/

theorem mem_dedupAgainst (v : String) :
    ∀ (vs ex : List String), v ∈ dedupAgainst ex vs ↔ v ∈ vs ∧ v ∉ ex := by
  intro vs
  induction vs with
  | nil => intro ex; simp [dedupAgainst]
  | cons w vs ih =>
    intro ex
    by_cases hw : w ∈ ex
    · rw [dedupAgainst, if_pos hw, ih]
      constructor
      · rintro ⟨h1, h2⟩
        exact ⟨List.mem_cons_of_mem w h1, h2⟩
      · rintro ⟨h1, h2⟩
        rcases List.mem_cons.mp h1 with rfl | h1
        · exact absurd hw h2
        · exact ⟨h1, h2⟩
    · rw [dedupAgainst, if_neg hw]
      simp only [List.mem_cons, ih, List.mem_append, List.mem_singleton,
        List.not_mem_nil, or_false]
      constructor
      · rintro (rfl | ⟨h1, h2⟩)
        · exact ⟨Or.inl rfl, hw⟩
        · exact ⟨Or.inr h1, fun hx => h2 (Or.inl hx)⟩
      · rintro ⟨h1, h2⟩
        rcases h1 with rfl | h1
        · exact Or.inl rfl
        · by_cases hvw : v = w
          · exact Or.inl hvw
          · refine Or.inr ⟨h1, fun hx => ?_⟩
            rcases hx with hx | hx
            · exact h2 hx
            · exact hvw hx

theorem nodup_dedupAgainst :
    ∀ (vs ex : List String), (dedupAgainst ex vs).Nodup := by
  intro vs
  induction vs with
  | nil => intro ex; simp [dedupAgainst]
  | cons w vs ih =>
    intro ex
    by_cases hw : w ∈ ex
    · rw [dedupAgainst, if_pos hw]
      exact ih ex
    · rw [dedupAgainst, if_neg hw]
      refine List.nodup_cons.mpr ⟨fun hmem => ?_, ih _⟩
      have := (mem_dedupAgainst w vs _).mp hmem
      exact this.2 (List.mem_append.mpr (Or.inr (List.mem_singleton.mpr rfl)))

theorem dedupAgainst_congr :
    ∀ (vs ex ex' : List String), (∀ v ∈ vs, (v ∈ ex ↔ v ∈ ex')) →
      dedupAgainst ex vs = dedupAgainst ex' vs := by
  intro vs
  induction vs with
  | nil => intro ex ex' _; rfl
  | cons w vs ih =>
    intro ex ex' hag
    have hw := hag w (List.mem_cons_self w vs)
    by_cases hmem : w ∈ ex
    · rw [dedupAgainst, if_pos hmem, dedupAgainst, if_pos (hw.mp hmem)]
      exact ih ex ex' fun v hv => hag v (List.mem_cons_of_mem w hv)
    · rw [dedupAgainst, if_neg hmem, dedupAgainst,
        if_neg (fun hx => hmem (hw.mpr hx))]
      rw [ih (ex ++ [w]) (ex' ++ [w]) ?_]
      intro v hv
      rw [List.mem_append, List.mem_append,
        hag v (List.mem_cons_of_mem w hv)]

theorem map_label_of_map (f : String → CompletionItem)
    (h : ∀ s, (f s).label = s) :
    ∀ l : List String, (l.map f).map (fun i => i.label) = l := by
  intro l
  induction l with
  | nil => rfl
  | cons k l ih => simp only [List.map_cons, h, ih]

/-! ## Claims C9, C6, C10 -/

/-- Claim C9: the shortcode lookup de-duplicates equal extension-stripped base
names (one candidate per distinct name, first-seen order), while the
template-file lookup produces one candidate per file with no merging, so
`templates/x/a.html` and `templates/y/a.html` yield two candidates both
labeled `a`. -/
theorem claim9_dedup_asymmetry :
    (∀ files : List String,
      (getShortcodeCompletions files).map (fun i => i.label) =
        dedupFirst (files.map baseNameNoExt) ∧
      ((getShortcodeCompletions files).map (fun i => i.label)).Nodup) ∧
    (∀ files : List String,
      (getTemplateFileCompletions files).map (fun i => i.label) =
        files.map baseNameNoExt) ∧
    (getTemplateFileCompletions
        ["templates/x/a.html", "templates/y/a.html"]).map (fun i => i.label) =
      ["a", "a"] := by
  have hshort : ∀ files : List String,
      (getShortcodeCompletions files).map (fun i => i.label) =
        dedupFirst (files.map baseNameNoExt) := by
    intro files
    rw [getShortcodeCompletions]
    exact map_label_of_map _ (fun s => rfl) _
  refine ⟨fun files => ⟨hshort files, ?_⟩, fun files => ?_, by decide⟩
  · rw [hshort files]
    exact nodup_dedupAgainst _ _
  · rw [getTemplateFileCompletions, List.map_map]
    rfl

/-- The labels of `getMarkdownPageKeys`: the 8 standard fields followed by the
scanned custom keys filtered only against the standard names. -/
theorem pageKeys_labels (doc : List Char) :
    (getMarkdownPageKeys doc).map (fun i => i.label) =
      standardFields ++ (customFrontMatterKeys doc).filter
        (fun k => decide (k ∉ standardFields)) := by
  have hfold : ∀ (l : List String) (acc : List CompletionItem),
      l.foldl (fun acc k =>
        if k ∈ standardFields then acc
        else acc ++ [createFieldItem k "Front-matter variable from current file"])
        acc =
      acc ++ (l.filter (fun k => decide (k ∉ standardFields))).map
        (fun k => createFieldItem k "Front-matter variable from current file") := by
    intro l
    induction l with
    | nil => intro acc; simp
    | cons k l ih =>
      intro acc
      by_cases hk : k ∈ standardFields
      · rw [List.foldl_cons, if_pos hk, ih, List.filter_cons,
          if_neg (by simp [hk])]
      · rw [List.foldl_cons, if_neg hk, ih, List.filter_cons,
          if_pos (by simp [hk]), List.map_cons, List.append_assoc]
        rfl
  rw [getMarkdownPageKeys, hfold, List.nil_append, List.map_append]
  congr 1
  exact map_label_of_map _ (fun s => rfl) _

/-- Claim C6: for every document, the page-scope field scanner returns the 8
standard fields `title, date, description, tags, template, url, head, content`
first, followed by the custom front-matter keys that are not among those 8
(no duplicate is produced when a custom key collides with a standard field). -/
theorem claim6_page_scope_fields (doc : List Char) :
    (getMarkdownPageKeys doc).map (fun i => i.label) =
      ["title", "date", "description", "tags", "template", "url", "head",
       "content"] ++
      (customFrontMatterKeys doc).filter
        (fun k => decide (k ∉ ["title", "date", "description", "tags",
          "template", "url", "head", "content"])) :=
  pageKeys_labels doc

/-- Claim C10: custom front-matter keys are de-duplicated only against the 8
standard fields, not against each other — a non-standard key scanned from two
different lines of the front-matter block appears twice in the result. -/
theorem claim10_duplicate_custom_keys (doc : List Char) (k : String)
    (hk : k ∉ standardFields)
    (h2 : (customFrontMatterKeys doc).count k = 2) :
    ((getMarkdownPageKeys doc).map (fun i => i.label)).count k = 2 := by
  rw [pageKeys_labels, List.count_append,
    List.count_eq_zero.mpr hk, List.count_filter (by simp [hk]), h2]

/-- Witness for C10: a front-matter block with `author:` on two lines yields
two `author` candidates. -/
theorem claim10_witness :
    "author" ∉ standardFields ∧
    (customFrontMatterKeys "---\nauthor: me\nauthor: you\n---\n".data).count
      "author" = 2 ∧
    ((getMarkdownPageKeys "---\nauthor: me\nauthor: you\n---\n".data).map
      (fun i => i.label)).count "author" = 2 :=
  ⟨by decide, by decide,
    claim10_duplicate_custom_keys "---\nauthor: me\nauthor: you\n---\n".data
      "author" (by decide) (by decide)⟩

/-! ## Claim C3: de-duplication of scanned user variables -/

theorem parseVarGroup_startsWith (capture : List Char) :
    ∀ v ∈ parseVarGroup capture, (v.data.head? == some '$') = true := by
  intro v hv
  simp only [parseVarGroup, List.mem_filter] at hv
  exact hv.2

theorem tryVarMatch_startsWith (l : List Char) (vs : List String)
    (rest : List Char) (h : tryVarMatch l = some (vs, rest)) :
    ∀ v ∈ vs, (v.data.head? == some '$') = true := by
  intro v hv
  rcases hc : varGroupCapture l with _ | ⟨cap, r⟩
  · rw [tryVarMatch, hc] at h
    exact Option.noConfusion h
  · rw [tryVarMatch, hc] at h
    simp only [Option.map, Option.some.injEq, Prod.mk.injEq] at h
    exact parseVarGroup_startsWith cap v (by rw [h.1]; exact hv)

theorem scanVarsAux_startsWith :
    ∀ (f : Nat) (cs : List Char) (v : String), v ∈ scanVarsAux f cs →
      (v.data.head? == some '$') = true := by
  intro f
  induction f with
  | zero => intro cs v hv; simp [scanVarsAux] at hv
  | succ f ih =>
    intro cs v hv
    rcases cs with _ | ⟨c, cs'⟩
    · simp [scanVarsAux] at hv
    · rw [scanVarsAux] at hv
      rcases h : tryVarMatch (c :: cs') with _ | ⟨vs, rest⟩
      · rw [h] at hv
        exact ih cs' v hv
      · rw [h] at hv
        rcases List.mem_append.mp hv with h1 | h2
        · exact tryVarMatch_startsWith _ _ _ h v h1
        · exact ih rest v h2

theorem scanVars_startsWith (doc : List Char) :
    ∀ v ∈ scanVars doc, (v.data.head? == some '$') = true :=
  scanVarsAux_startsWith _ _

theorem addUserVars_eq :
    ∀ (vs : List String) (items : List CompletionItem) (ex : List String),
      addUserVars items ex vs = items ++ (dedupAgainst ex vs).map mkUserVarItem := by
  intro vs
  induction vs with
  | nil => intro items ex; simp [addUserVars, dedupAgainst]
  | cons v vs ih =>
    intro items ex
    by_cases hv : v ∈ ex
    · rw [addUserVars, if_pos hv, dedupAgainst, if_pos hv, ih]
    · rw [addUserVars, if_neg hv, dedupAgainst, if_neg hv, ih,
        List.map_cons, List.append_assoc]
      rfl

/-- Claim C3: the common-expression generator is the static entries followed
by the scanned sigil-prefixed names de-duplicated to their first occurrences:
one user-variable candidate per distinct bound name (no matter how many
statements rebind it), in first-seen order, and every distinct scanned name is
represented. -/
theorem claim3_user_variable_dedup (doc : List Char) :
    getCommonExpressions doc =
      staticExpressionItems ++ (dedupFirst (scanVars doc)).map mkUserVarItem ∧
    (dedupFirst (scanVars doc)).Nodup ∧
    (∀ v, v ∈ dedupFirst (scanVars doc) ↔ v ∈ scanVars doc) := by
  refine ⟨?_, nodup_dedupAgainst _ _, fun v => ?_⟩
  · rw [getCommonExpressions, addUserVars_eq, dedupFirst]
    congr 2
    refine dedupAgainst_congr _ _ _ fun v hv => ?_
    have hd := scanVars_startsWith doc v hv
    have hs : ∀ s ∈ staticExpressionItems.map (fun i => i.label),
        (s.data.head? == some '$') = false := by decide
    simp only [List.not_mem_nil, iff_false]
    intro hmem
    rw [hs v hmem] at hd
    exact Bool.noConfusion hd
  · rw [dedupFirst, mem_dedupAgainst]
    simp

/-! ## Claim C4: block snippets -/

theorem bool_eq_false {b : Bool} (h : ¬ b = true) : b = false := by
  cases b
  · rfl
  · exact absurd rfl h

theorem getBlockCompletions_dash (lp : List Char) (pos : Nat)
    (next : Option Char) (h : ("\x7b-".data.isSuffixOf lp) = true) :
    getBlockCompletions lp pos next =
      some [⟨"\x7b- command -\x7d", ItemKind.Snippet, "Allay Command Block",
        none, some "- $0 -\x7d",
        some (pos - 1, if next = some '\x7d' then pos + 1 else pos),
        some "-", some "001", true, true⟩] := by
  rw [getBlockCompletions]
  simp [h]

theorem getBlockCompletions_colon (lp : List Char) (pos : Nat)
    (next : Option Char) (h1 : ("\x7b-".data.isSuffixOf lp) = false)
    (h2 : ("\x7b:".data.isSuffixOf lp) = true) :
    getBlockCompletions lp pos next =
      some [⟨"\x7b: expression :\x7d", ItemKind.Snippet,
        "Allay Expression Block", none, some ": $0 :\x7d",
        some (pos - 1, if next = some '\x7d' then pos + 1 else pos),
        some ":", some "001", true, true⟩] := by
  rw [getBlockCompletions]
  simp [h1, h2]

theorem getBlockCompletions_angle (lp : List Char) (pos : Nat)
    (next : Option Char) (h1 : ("\x7b-".data.isSuffixOf lp) = false)
    (h2 : ("\x7b:".data.isSuffixOf lp) = false)
    (h3 : ("\x7b<".data.isSuffixOf lp) = true) :
    getBlockCompletions lp pos next =
      some [⟨"\x7b< shortcode >\x7d", ItemKind.Snippet, "Shortcode Call",
        none, some "< $1 >\x7d$0",
        some (pos - 1, if next = some '\x7d' then pos + 1 else pos),
        some "<", some "001", false, true⟩,
       ⟨"\x7b< shortcode />\x7d", ItemKind.Snippet, "Self-closing Shortcode",
        none, some "< $1 />\x7d",
        some (pos - 1, if next = some '\x7d' then pos + 1 else pos),
        some "<", some "002", false, true⟩,
       ⟨"\x7b< pair >\x7d...\x7b</ pair >\x7d", ItemKind.Snippet,
        "Shortcode Block Pair", none,
        some "< $1 >\x7d\n\t$0\n\x7b</ $1 >\x7d",
        some (pos - 1, if next = some '\x7d' then pos + 1 else pos),
        some "<", some "003", false, true⟩] := by
  rw [getBlockCompletions]
  simp [h1, h2, h3]

/-- Claim C4: for a line prefix ending in exactly one of the two-character
openers `{-`, `{:`, `{<`, every produced snippet's replace span covers exactly
the final typed opener character (columns `|prefix|-1` to `|prefix|`),
extended by one further column when the character after the cursor is `}`;
and committing the command-block snippet `- $0 -\x7d` over that span yields
the closed block `\x7b- ` … ` -\x7d` with the cursor between the two dashes
(column `|prefix|+1`, directly after `\x7b- `). -/
theorem claim4_block_snippets (q tailPart : List Char) (c : Char)
    (hc : c = '-' ∨ c = ':' ∨ c = '<') :
    (∀ it ∈ (getBlockCompletions (q ++ ['\x7b', c]) (q ++ ['\x7b', c]).length
        tailPart.head?).getD [],
      it.range = some (q.length + 1,
        if tailPart.head? = some '\x7d' then q.length + 3 else q.length + 2)) ∧
    (c = '-' →
      ((getBlockCompletions (q ++ ['\x7b', c]) (q ++ ['\x7b', c]).length
          tailPart.head?).getD []).map (fun it => it.insertText) =
        [some "- $0 -\x7d"] ∧
      commitSnippet (q ++ ['\x7b', c] ++ tailPart)
          (q.length + 1,
            if tailPart.head? = some '\x7d' then q.length + 3 else q.length + 2)
          "- $0 -\x7d" =
        (q ++ "\x7b- ".data ++ " -\x7d".data ++
            tailPart.drop (if tailPart.head? = some '\x7d' then 1 else 0),
          q.length + 3)) := by
  have hlen : (q ++ ['\x7b', c]).length = q.length + 2 := by
    simp
  have hrange : ∀ pos : Nat, pos = q.length + 2 →
      (some (pos - 1, if tailPart.head? = some '\x7d' then pos + 1 else pos) :
        Option (Nat × Nat)) =
      some (q.length + 1,
        if tailPart.head? = some '\x7d' then q.length + 3
        else q.length + 2) := by
    rintro pos rfl
    by_cases hnext : tailPart.head? = some '\x7d'
    · simp only [if_pos hnext, Option.some.injEq, Prod.mk.injEq]
      exact ⟨by omega, trivial⟩
    · simp only [if_neg hnext, Option.some.injEq, Prod.mk.injEq]
      exact ⟨by omega, trivial⟩
  constructor
  · rcases hc with rfl | rfl | rfl
    · have hsuf : ("\x7b-".data.isSuffixOf (q ++ ['\x7b', '-'])) = true :=
        (isSuffixOf_pair q '\x7b' '-' '\x7b' '-').mpr ⟨rfl, rfl⟩
      rw [getBlockCompletions_dash _ _ _ hsuf]
      intro it hit
      rw [Option.getD_some, List.mem_singleton] at hit
      rw [hit]
      exact hrange _ hlen
    · have h1 : ("\x7b-".data.isSuffixOf (q ++ ['\x7b', ':'])) = false :=
        bool_eq_false fun hx =>
          absurd ((isSuffixOf_pair q '\x7b' '-' '\x7b' ':').mp hx).2 (by decide)
      have h2 : ("\x7b:".data.isSuffixOf (q ++ ['\x7b', ':'])) = true :=
        (isSuffixOf_pair q '\x7b' ':' '\x7b' ':').mpr ⟨rfl, rfl⟩
      rw [getBlockCompletions_colon _ _ _ h1 h2]
      intro it hit
      rw [Option.getD_some, List.mem_singleton] at hit
      rw [hit]
      exact hrange _ hlen
    · have h1 : ("\x7b-".data.isSuffixOf (q ++ ['\x7b', '<'])) = false :=
        bool_eq_false fun hx =>
          absurd ((isSuffixOf_pair q '\x7b' '-' '\x7b' '<').mp hx).2 (by decide)
      have h2 : ("\x7b:".data.isSuffixOf (q ++ ['\x7b', '<'])) = false :=
        bool_eq_false fun hx =>
          absurd ((isSuffixOf_pair q '\x7b' ':' '\x7b' '<').mp hx).2 (by decide)
      have h3 : ("\x7b<".data.isSuffixOf (q ++ ['\x7b', '<'])) = true :=
        (isSuffixOf_pair q '\x7b' '<' '\x7b' '<').mpr ⟨rfl, rfl⟩
      rw [getBlockCompletions_angle _ _ _ h1 h2 h3]
      intro it hit
      rw [Option.getD_some] at hit
      simp only [List.mem_cons, List.mem_singleton, List.not_mem_nil,
        or_false] at hit
      rcases hit with rfl | rfl | rfl
      · exact hrange _ hlen
      · exact hrange _ hlen
      · exact hrange _ hlen
  · rintro rfl
    have hsuf : ("\x7b-".data.isSuffixOf (q ++ ['\x7b', '-'])) = true :=
      (isSuffixOf_pair q '\x7b' '-' '\x7b' '-').mpr ⟨rfl, rfl⟩
    constructor
    · rw [getBlockCompletions_dash _ _ _ hsuf]
      rfl
    · have hsplit : splitAtCursorMark "- $0 -\x7d".data =
          ("- ".data, " -\x7d".data) := rfl
      have hshape : q ++ ['\x7b', '-'] ++ tailPart =
          (q ++ ['\x7b']) ++ ('-' :: tailPart) := by
        simp
      have htake : (q ++ ['\x7b', '-'] ++ tailPart).take (q.length + 1) =
          q ++ ['\x7b'] := by
        rw [hshape]
        exact List.take_left' (by simp)
      rw [commitSnippet, hsplit]
      by_cases hnext : tailPart.head? = some '\x7d'
      · rw [if_pos hnext, if_pos hnext]
        have hdrop : (q ++ ['\x7b', '-'] ++ tailPart).drop (q.length + 3) =
            tailPart.drop 1 := by
          have h3 : q.length + 3 = (q ++ ['\x7b', '-']).length + 1 := by
            simp
          rw [h3, ← List.drop_drop, List.drop_left]
        rw [htake, hdrop]
        simp only [Prod.mk.injEq]
        constructor
        · simp
        · simp
      · rw [if_neg hnext, if_neg hnext]
        have hdrop : (q ++ ['\x7b', '-'] ++ tailPart).drop (q.length + 2) =
            tailPart :=
          List.drop_left' (by simp)
        rw [htake, hdrop]
        simp only [Prod.mk.injEq]
        constructor
        · simp
        · simp

/-- Witness for C4 at prefix `x{-` with an auto-paired `}` after the cursor. -/
theorem claim4_witness :
    (∀ it ∈ (getBlockCompletions ("x".data ++ ['\x7b', '-'])
        ("x".data ++ ['\x7b', '-']).length ("\x7d".data).head?).getD [],
      it.range = some ("x".data.length + 1,
        if ("\x7d".data).head? = some '\x7d' then "x".data.length + 3
        else "x".data.length + 2)) ∧
    ('-' = '-' →
      ((getBlockCompletions ("x".data ++ ['\x7b', '-'])
          ("x".data ++ ['\x7b', '-']).length ("\x7d".data).head?).getD []).map
            (fun it => it.insertText) =
        [some "- $0 -\x7d"] ∧
      commitSnippet ("x".data ++ ['\x7b', '-'] ++ "\x7d".data)
          ("x".data.length + 1,
            if ("\x7d".data).head? = some '\x7d' then "x".data.length + 3
            else "x".data.length + 2)
          "- $0 -\x7d" =
        ("x".data ++ "\x7b- ".data ++ " -\x7d".data ++
            "\x7d".data.drop
              (if ("\x7d".data).head? = some '\x7d' then 1 else 0),
          "x".data.length + 3)) :=
  claim4_block_snippets "x".data "\x7d".data '-' (Or.inl rfl)

/-! ## Claim C5: field dispatch and config-key scanning -/

theorem identChar_not_ws {c : Char} (h : isIdentChar c = true) :
    isJsWs c = false := by
  refine bool_eq_false fun hw => ?_
  simp only [isIdentChar, Bool.or_eq_true, Bool.and_eq_true,
    decide_eq_true_eq] at h
  simp only [isJsWs, Bool.or_eq_true, Bool.and_eq_true,
    decide_eq_true_eq] at hw
  omega

theorem identChar_ne_bracket {c : Char} (h : isIdentChar c = true) :
    (c != '[') = true := by
  rw [bne_iff_ne]
  intro heq
  rw [heq] at h
  exact absurd h (by decide)

theorem scanEqAux_allWs :
    ∀ (f : Nat) (w : List Char), (∀ c ∈ w, isJsWs c = true) →
      scanEqAux f w = [] := by
  intro f
  induction f with
  | zero => intro w _; rfl
  | succ f ih =>
    intro w hw
    rcases w with _ | ⟨c, w'⟩
    · rfl
    · rw [scanEqAux]
      have hdw : (c :: w').dropWhile isJsWs = [] :=
        List.dropWhile_eq_nil_iff.mpr hw
      rw [if_neg (by simp)]
      simp only [hdw, List.takeWhile_nil, List.drop_nil, List.dropWhile_nil]
      rw [if_neg (by simp)]
      exact ih _ fun x hx => hw x (mem_nextLine hx)

theorem configBody_cons (kv : String × String) (rest : List (String × String)) :
    configBody (kv :: rest) =
      kv.1.data ++ ' ' :: '=' :: ' ' ::
        (kv.2.data ++ '\n' :: configBody rest) := by
  rw [configBody]
  have h1 : " = ".data = [' ', '=', ' '] := rfl
  rw [h1]
  simp [List.append_assoc]

theorem configBody_no_bracket :
    ∀ (kvs : List (String × String)),
      (∀ kv ∈ kvs, WFkey kv.1 ∧ WFval kv.2) →
      ∀ c ∈ configBody kvs, (c != '[') = true := by
  intro kvs
  induction kvs with
  | nil => intro _ c hc; cases hc
  | cons kv rest ih =>
    intro hwf c hc
    obtain ⟨hk, hv⟩ := hwf kv (List.mem_cons_self kv rest)
    rw [configBody_cons] at hc
    rcases List.mem_append.mp hc with hc | hc
    · exact identChar_ne_bracket (hk.2 c hc)
    · rcases List.mem_cons.mp hc with rfl | hc
      · decide
      · rcases List.mem_cons.mp hc with rfl | hc
        · decide
        · rcases List.mem_cons.mp hc with rfl | hc
          · decide
          · rcases List.mem_append.mp hc with hc | hc
            · rw [bne_iff_ne]
              exact (hv c hc).2
            · rcases List.mem_cons.mp hc with rfl | hc
              · decide
              · exact ih (fun x hx => hwf x (List.mem_cons_of_mem kv hx)) c hc

theorem scanEqAux_config :
    ∀ (kvs : List (String × String)) (w : List Char) (f : Nat),
      (∀ c ∈ w, isJsWs c = true) →
      (∀ kv ∈ kvs, WFkey kv.1 ∧ WFval kv.2) →
      (w ++ configBody kvs).length < f →
      scanEqAux f (w ++ configBody kvs) = kvs.map (fun kv => kv.1) := by
  intro kvs
  induction kvs with
  | nil =>
    intro w f hw _ _
    rw [configBody, List.append_nil, List.map_nil]
    exact scanEqAux_allWs f w hw
  | cons kv rest ih =>
    intro w f hw hwf hf
    obtain ⟨hk, hv⟩ := hwf kv (List.mem_cons_self kv rest)
    obtain ⟨kc, kt, hkdata⟩ : ∃ kc kt, kv.1.data = kc :: kt := by
      rcases hkd : kv.1.data with _ | ⟨kc, kt⟩
      · exact absurd hkd hk.1
      · exact ⟨kc, kt, rfl⟩
    rcases f with _ | f
    · exact absurd hf (Nat.not_lt_zero _)
    rw [configBody_cons] at hf ⊢
    rw [scanEqAux]
    have hkc : isIdentChar kc = true :=
      hk.2 kc (by rw [hkdata]; exact List.mem_cons_self kc kt)
    have hne : w ++ (kv.1.data ++ ' ' :: '=' :: ' ' ::
        (kv.2.data ++ '\n' :: configBody rest)) ≠ [] := by
      intro hnil
      rcases List.append_eq_nil.mp hnil with ⟨_, h2⟩
      rw [hkdata] at h2
      exact List.cons_ne_nil _ _ (List.append_eq_nil.mp h2).1
    rw [if_neg (by simp [hne])]
    have hs1 : (w ++ (kv.1.data ++ ' ' :: '=' :: ' ' ::
        (kv.2.data ++ '\n' :: configBody rest))).dropWhile isJsWs =
        kv.1.data ++ ' ' :: '=' :: ' ' ::
          (kv.2.data ++ '\n' :: configBody rest) := by
      rw [dropWhile_append_all _ hw, hkdata, List.cons_append,
        List.dropWhile_cons, identChar_not_ws hkc]
      simp
    have hid : (kv.1.data ++ ' ' :: '=' :: ' ' ::
        (kv.2.data ++ '\n' :: configBody rest)).takeWhile isIdentChar =
        kv.1.data :=
      takeWhile_append_stop _ hk.2 (by decide)
    have hdropid : (kv.1.data ++ ' ' :: '=' :: ' ' ::
        (kv.2.data ++ '\n' :: configBody rest)).drop kv.1.data.length =
        ' ' :: '=' :: ' ' :: (kv.2.data ++ '\n' :: configBody rest) :=
      List.drop_left _ _
    have hs2 : (' ' :: '=' :: ' ' ::
        (kv.2.data ++ '\n' :: configBody rest)).dropWhile isJsWs =
        '=' :: ' ' :: (kv.2.data ++ '\n' :: configBody rest) := by
      rw [List.dropWhile_cons, if_pos (by decide), List.dropWhile_cons,
        if_neg (by decide)]
    simp only [hs1, hid, hdropid, hs2]
    rw [if_pos (by exact ⟨hk.1, rfl⟩)]
    have htail : nextLine ('=' :: ' ' ::
        (kv.2.data ++ '\n' :: configBody rest)).tail = configBody rest := by
      rw [List.tail_cons, nextLine_eq]
      have hshape : ' ' :: (kv.2.data ++ '\n' :: configBody rest) =
          (' ' :: kv.2.data) ++ ('\n' :: configBody rest) := by
        simp
      rw [hshape, dropWhile_append_all _ ?hall, List.dropWhile_cons]
      · simp
      case hall =>
        intro x hx
        rcases List.mem_cons.mp hx with rfl | hx
        · decide
        · rw [bne_iff_ne]
          exact (hv x hx).1
    rw [htail, asString_data, List.map_cons]
    congr 1
    have hrest := ih [] f (by intro c hc; cases hc)
      (fun x hx => hwf x (List.mem_cons_of_mem kv hx)) ?hlen
    · rwa [List.nil_append] at hrest
    case hlen =>
      rw [List.nil_append]
      simp only [List.length_append, List.length_cons] at hf ⊢
      omega

theorem paramHeaderAt_mkConfig (kvs : List (String × String)) :
    paramHeaderAt (mkConfigText kvs).data = true := by
  rw [mkConfigText, data_asString, paramHeaderAt,
    List.take_left' (by decide)]
  decide

theorem findParamSection_here {l : List Char} (h : paramHeaderAt l = true)
    (hne : l ≠ []) :
    findParamSection l = some ((l.drop 7).takeWhile (fun x => x != '[')) := by
  rcases l with _ | ⟨c, rest⟩
  · exact absurd rfl hne
  · rw [findParamSection, if_pos h]
    rfl

theorem findParamSection_mkConfig (kvs : List (String × String))
    (hwf : ∀ kv ∈ kvs, WFkey kv.1 ∧ WFval kv.2) :
    findParamSection (mkConfigText kvs).data =
      some ('\n' :: configBody kvs) := by
  rw [findParamSection_here (paramHeaderAt_mkConfig kvs)
    (by rw [mkConfigText, data_asString]; simp)]
  rw [mkConfigText, data_asString, List.drop_left' (by decide)]
  rw [List.takeWhile_eq_self_iff.mpr ?hall]
  case hall =>
    intro x hx
    rcases List.mem_cons.mp hx with rfl | hx
    · decide
    · exact configBody_no_bracket kvs hwf x hx

/-- Claim C5: the field resolver returns exactly the two candidates `param`
and `pages` for root `site`; for root `site.param` it returns one candidate
per `identifier = value` line under the `[Param]` section of the config file
and nothing when the file is absent or has no such section; every other root
(other than the page-scope roots: the empty string or one ending in `page`)
yields the empty list. -/
theorem claim5_field_dispatch :
    (∀ (doc : List Char) (cfg : Option (Except Unit String)),
      (getFieldCompletions "site" doc cfg).map (fun i => i.label) =
        ["param", "pages"]) ∧
    (∀ (doc : List Char) (kvs : List (String × String)),
      (∀ kv ∈ kvs, WFkey kv.1 ∧ WFval kv.2) →
      (getFieldCompletions "site.param" doc
          (some (Except.ok (mkConfigText kvs)))).map (fun i => i.label) =
        kvs.map (fun kv => kv.1)) ∧
    (∀ doc : List Char, getFieldCompletions "site.param" doc none = []) ∧
    (∀ (doc : List Char) (t : String),
      t.data.tails.any paramHeaderAt = false →
      getFieldCompletions "site.param" doc (some (Except.ok t)) = []) ∧
    (∀ (doc : List Char) (cfg : Option (Except Unit String)) (parent : String),
      parent ≠ "site" → parent ≠ "site.param" → parent ≠ "" →
      parent.endsWith "page" = false →
      getFieldCompletions parent doc cfg = []) := by
  refine ⟨fun doc cfg => ?_, fun doc kvs hwf => ?_, fun doc => ?_,
    fun doc t ht => ?_, fun doc cfg parent h1 h2 h3 h4 => ?_⟩
  · rw [getFieldCompletions, if_pos rfl]
    rfl
  · rw [getFieldCompletions, if_neg (by decide), if_pos rfl,
      getAllayConfigKeys, findParamSection_mkConfig kvs hwf]
    rw [map_label_of_map _ (fun s => rfl) _]
    have hlen : ('\n' :: configBody kvs).length =
        (['\n'] ++ configBody kvs).length := rfl
    rw [scanEqKeys, show ('\n' :: configBody kvs) =
      ['\n'] ++ configBody kvs from rfl]
    exact scanEqAux_config kvs ['\n'] _ (by decide) hwf (by omega)
  · rw [getFieldCompletions, if_neg (by decide), if_pos rfl]
    rfl
  · rw [getFieldCompletions, if_neg (by decide), if_pos rfl,
      getAllayConfigKeys, findParamSection_eq_none ht]
  · rw [getFieldCompletions, if_neg h1, if_neg h2,
      if_neg (by simp [h3, h4])]

/-- Witness for C5's config-section conjunct at a one-line `[Param]` body. -/
theorem claim5_witness :
    (∀ kv ∈ [(("alpha" : String), ("1" : String))], WFkey kv.1 ∧ WFval kv.2) ∧
    (getFieldCompletions "site.param" []
        (some (Except.ok (mkConfigText [("alpha", "1")])))).map
          (fun i => i.label) =
      [(("alpha" : String), ("1" : String))].map (fun kv => kv.1) := by
  have hwf : ∀ kv ∈ [(("alpha" : String), ("1" : String))],
      WFkey kv.1 ∧ WFval kv.2 := by
    intro kv hkv
    rw [List.mem_singleton] at hkv
    subst hkv
    refine ⟨⟨by decide, by decide⟩, fun c hc => ⟨fun h => ?_, fun h => ?_⟩⟩
    · subst h
      exact absurd hc (by decide)
    · subst h
      exact absurd hc (by decide)
  exact ⟨hwf, claim5_field_dispatch.2.1 [] [("alpha", "1")] hwf⟩

end Allay
